import Mathlib

set_option linter.unusedVariables false

/-!
Shallow embedding of `src/brainfuck.cpp` (Brainfuck parser, printer,
evaluator, compiler).

Conventions used throughout:
* the character stream of `fstream` is a `List Char`; `file >> c` reads the
  next character (stream extraction skips whitespace, but every whitespace
  character is also ignored by the parser's `switch`, so reading characters
  one by one is behaviourally identical); `file.peek()` inspects the next
  character without consuming it, and at end of stream compares unequal to
  every character;
* machine integers are `Nat`/`Int`: tape cells are `unsigned char`, kept as
  `Nat` values `< 256` with explicit `% 256`; the tape pointer is an `Int`
  (raw pointer arithmetic, which the code never bounds-checks);
* the recursive-descent parser and the evaluator's `while` loop are given
  explicit fuel; fuel `length + 1` is provably enough for the parser, and
  fuel-insensitivity is proved below.
-/

/-- The `Command` enum of lines 21-29.  The enumerators carry the default
C++ values 0..6 (see `commandVal`); this matters because line 147 compares
an enumerator against character literals. -/
inductive Command where
  | INCREMENT
  | DECREMENT
  | SHIFT_LEFT
  | SHIFT_RIGHT
  | INPUT
  | OUTPUT
  | ZERO
deriving DecidableEq, Repr

/-- The numeric value of each enumerator of `Command` (C++ assigns 0,1,2,...
in declaration order). -/
def commandVal : Command → Nat
  | .INCREMENT => 0
  | .DECREMENT => 1
  | .SHIFT_LEFT => 2
  | .SHIFT_RIGHT => 3
  | .INPUT => 4
  | .OUTPUT => 5
  | .ZERO => 6

/-- `CommandNotValidException` of lines 56-59. -/
inductive CommandNotValidException where
  | mk
deriving DecidableEq, Repr

/-- The `switch` in the `CommandNode` constructor, lines 69-81: the accepted
characters are `+ - < > , . 0` (note `0`, the internal marker for the
clear-cell command, and note that `[` and `]` are rejected); any other
character throws `CommandNotValidException`. -/
def commandFromChar : Char → Except CommandNotValidException Command
  | '+' => .ok .INCREMENT
  | '-' => .ok .DECREMENT
  | '<' => .ok .SHIFT_LEFT
  | '>' => .ok .SHIFT_RIGHT
  | ',' => .ok .INPUT
  | '.' => .ok .OUTPUT
  | '0' => .ok .ZERO
  | _ => .error .mk

mutual
/-- The AST of lines 50-113. `Node` is `CommandNode` (a command with its
run-length `count`) or `Loop`; the `children` vector of a `Container` is
`NodeList` (a mutual inductive so that all tree functions are structural). -/
inductive Node where
  | CommandNode (command : Command) (count : Nat)
  | Loop (children : NodeList)
deriving DecidableEq, Repr
inductive NodeList where
  | nil
  | cons (head : Node) (tail : NodeList)
deriving DecidableEq, Repr
end

/-- `Program`, lines 108-113: the root container. -/
structure Program where
  children : NodeList
deriving DecidableEq, Repr

def NodeList.append : NodeList → NodeList → NodeList
  | .nil, ys => ys
  | .cons x xs, ys => .cons x (xs.append ys)

instance : Append NodeList := ⟨NodeList.append⟩

theorem NodeList.nil_append (ys : NodeList) : NodeList.nil ++ ys = ys := rfl

theorem NodeList.cons_append (x : Node) (xs ys : NodeList) :
    NodeList.cons x xs ++ ys = NodeList.cons x (xs ++ ys) := rfl

/-- Induction over a `NodeList` alone (the `induction` tactic cannot be
used directly on a mutual inductive). -/
theorem NodeList.inductionOn (motive : NodeList → Prop) (ns : NodeList)
    (hnil : motive .nil)
    (hcons : ∀ a tl, motive tl → motive (.cons a tl)) : motive ns :=
  NodeList.rec (motive_1 := fun _ => True) (motive_2 := motive)
    (fun _ _ => trivial) (fun _ _ => trivial) hnil (fun a tl _ h => hcons a tl h) ns

/-- Simultaneous induction over `Node` and `NodeList`. -/
theorem NodeList.mutualInduction (motiveN : Node → Prop) (motiveL : NodeList → Prop)
    (hcmd : ∀ k n, motiveN (.CommandNode k n))
    (hloop : ∀ ns, motiveL ns → motiveN (.Loop ns))
    (hnil : motiveL .nil)
    (hcons : ∀ a tl, motiveN a → motiveL tl → motiveL (.cons a tl)) :
    ∀ ns, motiveL ns :=
  NodeList.rec (motive_1 := motiveN) (motive_2 := motiveL) hcmd hloop hnil hcons

theorem NodeList.append_nil (xs : NodeList) : xs ++ NodeList.nil = xs := by
  refine NodeList.inductionOn (fun l => l ++ NodeList.nil = l) xs rfl ?_
  intro a tl ih
  rw [NodeList.cons_append, ih]

/-- The six primitive characters that line 126's `switch` folds by run
length (cases `'+' '-' '<' '>' ',' '.'` at lines 128-133). -/
def isCmdChar (c : Char) : Bool :=
  c == '+' || c == '-' || c == '<' || c == '>' || c == ',' || c == '.'

/-- The command the `CommandNode(c, multiples)` constructor call at line 139
produces for a primitive character `c`.  In the parser this branch is only
reached with `isCmdChar c`, where the constructor cannot throw; the
`.error` fallback is arbitrary (unreachable there). -/
def cmdOfChar (c : Char) : Command :=
  match commandFromChar c with
  | .ok k => k
  | .error _ => .INCREMENT

/-- Lines 144-158, the clear-cell idiom check after a loop body has been
parsed.  The condition at line 147 is `leaf->command == '+' ||
leaf->command == '-'`: the `Command` enumerator (value 0..6) is compared
against the character codes of `'+'` (43) and `'-'` (45).  When the single
child is itself a `Loop`, line 146's unchecked cast reads memory that is
not a `Command` field (undefined behaviour); this is modelled as the
comparison failing, which matches every claim exercised here (those only
involve `CommandNode` children or multi-child bodies). -/
def loopRewrite (body : NodeList) : Node :=
  match body with
  | .cons (.CommandNode k _) .nil =>
    if commandVal k = '+'.toNat || commandVal k = '-'.toNat then
      .CommandNode .ZERO 1
    else
      .Loop body
  | _ => .Loop body

/-- `parse` of lines 119-164, fuelled.  Each recursive call consumes at
least one character, so fuel `length + 1` is enough (see `parseF_congr`).

* run-length fold (lines 128-140): `multiples = 1`, then
  `while (file.peek() == c) { multiples++; file >> c; }`, then one
  `CommandNode(c, multiples)` is pushed;
* `'['` (lines 141-159): parse the body recursively, apply `loopRewrite`,
  push the result, continue;
* `']'` (lines 160-161): return, ending the current container's children;
* any other character: ignored (no `default` case in the `switch`);
* end of stream: the `while (file >> c)` loop exits (unterminated loops are
  implicitly closed). -/
def parseF : Nat → List Char → NodeList × List Char
  | 0, l => (.nil, l)
  | _ + 1, [] => (.nil, [])
  | fuel + 1, c :: rest =>
    if isCmdChar c then
      let n := 1 + (rest.takeWhile (fun d => d == c)).length
      let p := parseF fuel (rest.dropWhile (fun d => d == c))
      (.cons (.CommandNode (cmdOfChar c) n) p.1, p.2)
    else if c = '[' then
      let p := parseF fuel rest
      let q := parseF fuel p.2
      (.cons (loopRewrite p.1) q.1, q.2)
    else if c = ']' then
      (.nil, rest)
    else
      parseF fuel rest

/-- `parse(file, &program)` as called from `main` (line 336): parse the
whole character stream into the root `Program`. -/
def parseProg (l : List Char) : Program :=
  ⟨(parseF (l.length + 1) l).1⟩

/-- Line 194 of the printer: `cout << '[+]'`.  `'[+]'` is a multi-character
literal of type `int`; with gcc its value is
`'[' * 65536 + '+' * 256 + ']' = 5974877`, and streaming an `int` prints
its decimal digits.  So the `ZERO` branch emits the text `"5974877"`, not
the three characters `[+]`. -/
def zeroLexeme : List Char :=
  (Nat.repr ('['.toNat * 65536 + '+'.toNat * 256 + ']'.toNat)).data

/-- The character the printer emits for each command (lines 173-196);
`ZERO`'s lexeme is not a single character, see `zeroLexeme` (the `'0'`
value here is only a placeholder, `printCmd` never consults it). -/
def cmdChar : Command → Char
  | .INCREMENT => '+'
  | .DECREMENT => '-'
  | .SHIFT_LEFT => '<'
  | .SHIFT_RIGHT => '>'
  | .INPUT => ','
  | .OUTPUT => '.'
  | .ZERO => '0'

/-- `Printer::visit(const CommandNode*)`, lines 173-197: each branch loops
`count` times emitting the command's lexeme once per iteration. -/
def printCmd : Command → Nat → List Char
  | .ZERO, n => (List.replicate n zeroLexeme).flatten
  | k, n => List.replicate n (cmdChar k)

mutual
/-- `Printer::visit` for `Loop` (lines 198-204: `[`, children, `]`) and the
child recursion of lines 200-202 / 206-208. -/
def printNode : Node → List Char
  | .CommandNode k n => printCmd k n
  | .Loop ns => ('[' :: printForest ns) ++ [']']
def printForest : NodeList → List Char
  | .nil => []
  | .cons hd tl => printNode hd ++ printForest tl
end

/-- `Printer::visit(const Program*)`, lines 205-210: the children in order,
then a trailing newline. -/
def printProg (p : Program) : List Char :=
  printForest p.children ++ ['\n']

/-- The `Evaluator`'s mutable state (lines 214-272): the cell pointer `ptr`
as an integer offset from `arr` (raw pointer arithmetic, never checked
against `max`; the `pos`/`max` fields of lines 269-270 are declared "for
memory safety checks" but never used), the memory as a total function from
offsets — out-of-range offsets address whatever bytes sit next to the
allocation —, plus the byte streams of `getchar`/`putchar`. -/
structure EState where
  cursor : Int
  mem : Int → Nat
  inp : List Nat
  out : List Nat

def memWrite (m : Int → Nat) (i : Int) (v : Nat) : Int → Nat :=
  fun j => if j = i then v else m j

/-- Reduction of a sum of two bytes into a byte: the same function as
`% 256` on all inputs below 512 (see `wrap256_eq_mod`), written with a
comparison so that it evaluates by structural reduction (`Nat.mod` is
defined by well-founded recursion, which blocks definitional evaluation
inside open terms).  Cell values are always below 256, so the `unsigned
char` results `v + 1` and `v + 255` of `++*ptr` / `--*ptr` are in range. -/
def wrap256 (x : Nat) : Nat :=
  if 256 ≤ x then x - 256 else x

theorem wrap256_eq_mod (x : Nat) (h : x < 512) : wrap256 x = x % 256 := by
  unfold wrap256
  by_cases hx : 256 ≤ x
  · rw [if_pos hx, Nat.mod_eq_sub_mod hx, Nat.mod_eq_of_lt (by omega)]
  · rw [if_neg hx, Nat.mod_eq_of_lt (by omega)]

/-- One iteration of the per-command `for` loops of
`Evaluator::visit(const CommandNode*)`, lines 224-248:
`++*ptr` / `--*ptr` wrap modulo 256 (`unsigned char` arithmetic, the
`wrap256` byte truncation above);
`++ptr` / `--ptr` move the cursor with no bounds check;
`*ptr = getchar()` stores the next input byte, or 255 at end of stream
(glibc `getchar` returns `EOF = -1`, which truncates to `0xFF` in the
`unsigned char` cell); `putchar(*ptr)` appends the cell to the output;
`*ptr = 0` clears the cell. -/
def cmdStep : Command → EState → EState
  | .INCREMENT, s => { s with mem := memWrite s.mem s.cursor (wrap256 (s.mem s.cursor + 1)) }
  | .DECREMENT, s => { s with mem := memWrite s.mem s.cursor (wrap256 (s.mem s.cursor + 255)) }
  | .SHIFT_LEFT, s => { s with cursor := s.cursor - 1 }
  | .SHIFT_RIGHT, s => { s with cursor := s.cursor + 1 }
  | .INPUT, s =>
    match s.inp with
    | [] => { s with mem := memWrite s.mem s.cursor 255 }
    | b :: t => { s with mem := memWrite s.mem s.cursor (b % 256), inp := t }
  | .OUTPUT, s => { s with out := s.out ++ [s.mem s.cursor] }
  | .ZERO, s => { s with mem := memWrite s.mem s.cursor 0 }

/-- `for (int i = 0; i < leaf->count; i++) { ... }`: the command applied
`count` times. -/
def runCmd (k : Command) : Nat → EState → EState
  | 0, s => s
  | n + 1, s => runCmd k n (cmdStep k s)

/-- The evaluator's traversal, fuelled (the `while (*ptr)` loop of lines
251-257 need not terminate).  A work list of nodes is processed in order; a
`Loop` whose cell is non-zero runs its children once and is retried, which
is exactly `while (*ptr) { for (child : children) child->accept(this); }`.
`none` means the fuel ran out mid-loop. -/
def evalN : Nat → NodeList → EState → Option EState
  | 0, _, _ => none
  | _ + 1, .nil, s => some s
  | fuel + 1, .cons (.CommandNode k n) rest, s => evalN fuel rest (runCmd k n s)
  | fuel + 1, .cons (.Loop ns) rest, s =>
    if s.mem s.cursor = 0 then
      evalN fuel rest s
    else
      match evalN fuel ns s with
      | none => none
      | some t => evalN fuel (.cons (.Loop ns) rest) t

/-- The constructor `Evaluator(int maxMemory)`, lines 217-221:
`arr = new unsigned char[maxMemory]` followed by
`memset(arr, 0, sizeof(arr))`.  `arr` is a pointer, so `sizeof(arr)` is 8
(64-bit build): only the first 8 cells are zeroed; every other cell keeps
the indeterminate contents of the fresh heap block, modelled by the
arbitrary byte function `junk`. -/
def initMem (junk : Int → Nat) : Int → Nat :=
  fun i => if 0 ≤ i ∧ i < 8 then 0 else junk i % 256

def initState (inp : List Nat) (junk : Int → Nat) : EState :=
  { cursor := 0, mem := initMem junk, inp := inp, out := [] }

/-- Running `program.accept(&eval)` on a fresh `Evaluator(maxMemory)`:
`visit(const Program*)` (lines 260-265) runs the children in order and then
writes `'\n'` to `cout` — a console separator like the `"SRC:"` labels in
`main`, not part of the `putchar` byte stream, which `out` models.
`maxMemory` is recorded by the constructor but never consulted during
evaluation (no bounds checks), so it does not appear on the right-hand
side. -/
def evalProg (p : Program) (maxMemory : Int) (inp : List Nat)
    (junk : Int → Nat) (fuel : Nat) : Option EState :=
  evalN fuel p.children (initState inp junk)

mutual
/-- Well-formedness that every parser-produced tree enjoys (proved in
`parseF_wf`): every `CommandNode` has a command other than `ZERO` and a
count of at least 1. -/
def wfNode : Node → Bool
  | .CommandNode k n => !(k == Command.ZERO) && decide (1 ≤ n)
  | .Loop ns => wfForest ns
def wfForest : NodeList → Bool
  | .nil => true
  | .cons a tl => wfNode a && wfForest tl
end

/-- Do two sibling nodes start with the same command?  (Adjacent
`CommandNode`s with equal commands re-merge when their printed runs are
parsed again.) -/
def sameCmd : Node → Node → Bool
  | .CommandNode k _, .CommandNode k' _ => k == k'
  | _, _ => false

mutual
/-- No two consecutive siblings, at any nesting depth, are `CommandNode`s
with the same command. -/
def adjNode : Node → Bool
  | .CommandNode _ _ => true
  | .Loop ns => adjForest ns
def adjForest : NodeList → Bool
  | .nil => true
  | .cons a .nil => adjNode a
  | .cons a (.cons b tl) => adjNode a && !sameCmd a b && adjForest (.cons b tl)
end

/-! ## Parser infrastructure lemmas -/

theorem length_dropWhile_le (p : Char → Bool) (l : List Char) :
    (l.dropWhile p).length ≤ l.length := by
  induction l with
  | nil => exact Nat.le_refl 0
  | cons a l ih =>
    by_cases h : p a = true
    · rw [List.dropWhile_cons_of_pos h]
      exact Nat.le_succ_of_le ih
    · rw [List.dropWhile_cons_of_neg h]

/-- Unfolding equation of `parseF` on a successor fuel and a non-empty
stream. -/
theorem parseF_succ_cons (f : Nat) (c : Char) (rest : List Char) :
    parseF (f + 1) (c :: rest) =
    if isCmdChar c then
      (.cons (.CommandNode (cmdOfChar c) (1 + (rest.takeWhile (fun d => d == c)).length))
        (parseF f (rest.dropWhile (fun d => d == c))).1,
       (parseF f (rest.dropWhile (fun d => d == c))).2)
    else if c = '[' then
      (.cons (loopRewrite (parseF f rest).1) (parseF f (parseF f rest).2).1,
       (parseF f (parseF f rest).2).2)
    else if c = ']' then (.nil, rest)
    else parseF f rest := rfl

/-- The stream left over by `parse` is a suffix of its input: the parser
only moves forward. -/
theorem parseF_rest_length : ∀ (f : Nat) (l : List Char),
    (parseF f l).2.length ≤ l.length := by
  intro f
  induction f with
  | zero => intro l; exact Nat.le_refl _
  | succ f ih =>
    intro l
    match l with
    | [] => exact Nat.zero_le _
    | c :: rest =>
      rw [parseF_succ_cons]
      by_cases hc : isCmdChar c = true
      · rw [if_pos hc]
        exact Nat.le_succ_of_le
          (Nat.le_trans (ih _) (length_dropWhile_le _ rest))
      · rw [if_neg hc]
        by_cases ho : c = '['
        · rw [if_pos ho]
          exact Nat.le_succ_of_le (Nat.le_trans (ih _) (ih rest))
        · rw [if_neg ho]
          by_cases hcl : c = ']'
          · rw [if_pos hcl]
            exact Nat.le_succ _
          · rw [if_neg hcl]
            exact Nat.le_succ_of_le (ih rest)

/-- Fuel-insensitivity of `parseF`: any fuel strictly above the input
length computes the same result (each recursive call consumes at least one
character). -/
theorem parseF_congr : ∀ (f : Nat), ∀ (g : Nat) (l : List Char),
    l.length < f → l.length < g → parseF f l = parseF g l := by
  intro f
  induction f with
  | zero => intro g l h1 _; exact absurd h1 (Nat.not_lt_zero _)
  | succ f ih =>
    intro g l h1 h2
    match g with
    | 0 => exact absurd h2 (Nat.not_lt_zero _)
    | g + 1 =>
      match l with
      | [] => rfl
      | c :: rest =>
        have hr : rest.length < f := Nat.lt_of_succ_lt_succ h1
        have hrg : rest.length < g := Nat.lt_of_succ_lt_succ h2
        rw [parseF_succ_cons, parseF_succ_cons]
        by_cases hc : isCmdChar c = true
        · rw [if_pos hc, if_pos hc]
          rw [ih g (rest.dropWhile (fun d => d == c))
            (Nat.lt_of_le_of_lt (length_dropWhile_le _ rest) hr)
            (Nat.lt_of_le_of_lt (length_dropWhile_le _ rest) hrg)]
        · rw [if_neg hc, if_neg hc]
          by_cases ho : c = '['
          · rw [if_pos ho, if_pos ho]
            rw [ih g rest hr hrg]
            rw [ih g (parseF g rest).2
              (Nat.lt_of_le_of_lt (parseF_rest_length g rest) hr)
              (Nat.lt_of_le_of_lt (parseF_rest_length g rest) hrg)]
          · rw [if_neg ho, if_neg ho]
            by_cases hcl : c = ']'
            · rw [if_pos hcl, if_pos hcl]
            · rw [if_neg hcl, if_neg hcl]
              exact ih g rest hr hrg

/-- The clear-cell rewrite of lines 144-158 never fires: the guard compares
the `Command` enumerator value (0..6) with the character codes 43 (`'+'`)
and 45 (`'-'`), so every parsed loop body is kept as a literal `Loop`. -/
theorem loopRewrite_eq (body : NodeList) : loopRewrite body = Node.Loop body := by
  match body with
  | .nil => rfl
  | .cons (.CommandNode k m) .nil =>
    cases k <;> rfl
  | .cons (.CommandNode k m) (.cons b tl) => rfl
  | .cons (.Loop ns) tl => rfl

/-- The first character of `l`, if any, differs from `c`. -/
def headNe (c : Char) (l : List Char) : Prop :=
  ∀ d r, l = d :: r → (d == c) = false

/-- The first character of `l`, if any, is not one of the six run-folded
primitive characters. -/
def headNotCmd (l : List Char) : Prop :=
  ∀ d r, l = d :: r → isCmdChar d = false

theorem takeWhile_replicate (c : Char) (m : Nat) (Z : List Char) (hZ : headNe c Z) :
    (List.replicate m c ++ Z).takeWhile (fun d => d == c) = List.replicate m c := by
  induction m with
  | zero =>
    match Z with
    | [] => rfl
    | d :: r =>
      simpa using List.takeWhile_cons_of_neg (p := fun d => d == c) (l := r)
        (by simp [hZ d r rfl])
  | succ m ih =>
    rw [List.replicate_succ, List.cons_append,
      List.takeWhile_cons_of_pos (by simp), ih]

theorem dropWhile_replicate (c : Char) (m : Nat) (Z : List Char) (hZ : headNe c Z) :
    (List.replicate m c ++ Z).dropWhile (fun d => d == c) = Z := by
  induction m with
  | zero =>
    match Z with
    | [] => rfl
    | d :: r =>
      simpa using List.dropWhile_cons_of_neg (p := fun d => d == c) (l := r)
        (by simp [hZ d r rfl])
  | succ m ih =>
    rw [List.replicate_succ, List.cons_append,
      List.dropWhile_cons_of_pos (by simp), ih]

/-- The run-length fold of lines 128-140 on a maximal run: a primitive
character followed by `m` more copies and then a stream not starting with
that character produces exactly one `CommandNode` with count `1 + m`, after
which parsing continues on the rest of the stream. -/
theorem parseF_run (f : Nat) (c : Char) (hc : isCmdChar c = true) (m : Nat)
    (Z : List Char) (hZ : headNe c Z) :
    parseF (f + 1) (c :: (List.replicate m c ++ Z)) =
      (.cons (.CommandNode (cmdOfChar c) (1 + m)) (parseF f Z).1, (parseF f Z).2) := by
  rw [parseF_succ_cons, if_pos hc, takeWhile_replicate c m Z hZ,
    dropWhile_replicate c m Z hZ, List.length_replicate]

theorem parseF_nil (f : Nat) : parseF f [] = (.nil, []) := by
  match f with
  | 0 => rfl
  | _ + 1 => rfl

/-- A `]` at the head of the stream ends the current children list at once
(lines 160-161). -/
theorem parseF_close (f : Nat) (Z : List Char) (hf : 1 ≤ f) :
    parseF f (']' :: Z) = (.nil, Z) := by
  match f with
  | f + 1 =>
    rw [parseF_succ_cons, if_neg (by decide), if_neg (by decide), if_pos rfl]

theorem cmdOfChar_ne_zero (c : Char) (hc : isCmdChar c = true) :
    (cmdOfChar c == Command.ZERO) = false := by
  simp only [isCmdChar, Bool.or_eq_true, beq_iff_eq] at hc
  rcases hc with ((((h | h) | h) | h) | h) | h <;> subst h <;> rfl

/-- Every tree the parser builds is well-formed: the parser only constructs
`CommandNode`s from the six primitive characters (never `ZERO`, since the
rewrite of line 149 is unreachable) with counts of at least 1. -/
theorem parseF_wf : ∀ (f : Nat) (l : List Char), wfForest (parseF f l).1 = true := by
  intro f
  induction f with
  | zero => intro l; rfl
  | succ f ih =>
    intro l
    match l with
    | [] => rfl
    | c :: rest =>
      rw [parseF_succ_cons]
      by_cases hc : isCmdChar c = true
      · rw [if_pos hc]
        simp only [wfForest, wfNode, Bool.and_eq_true, Bool.not_eq_true']
        exact ⟨⟨cmdOfChar_ne_zero c hc, by simp⟩, ih _⟩
      · rw [if_neg hc]
        by_cases ho : c = '['
        · rw [if_pos ho]
          simp only [wfForest, Bool.and_eq_true, loopRewrite_eq, wfNode]
          exact ⟨ih _, ih _⟩
        · rw [if_neg ho]
          by_cases hcl : c = ']'
          · rw [if_pos hcl]; rfl
          · rw [if_neg hcl]; exact ih rest

/-! ## Printer lemmas and the print-parse composition -/

theorem printCmd_eq (k : Command) (n : Nat) (hk : k ≠ Command.ZERO) :
    printCmd k n = List.replicate n (cmdChar k) := by
  cases k <;> first | rfl | exact absurd rfl hk

theorem cmdChar_isCmd (k : Command) (hk : k ≠ Command.ZERO) :
    isCmdChar (cmdChar k) = true := by
  cases k <;> first | rfl | exact absurd rfl hk

theorem cmdOfChar_cmdChar (k : Command) :
    cmdOfChar (cmdChar k) = k := by
  cases k <;> rfl

theorem cmdChar_inj (a b : Command) (ha : a ≠ Command.ZERO) (hb : b ≠ Command.ZERO) :
    cmdChar a = cmdChar b → a = b := by
  cases a <;> cases b <;> intro h <;>
    first
    | rfl
    | exact absurd rfl ha
    | exact absurd rfl hb
    | exact absurd h (by decide)

theorem wfForest_cons (a : Node) (tl : NodeList)
    (h : wfForest (.cons a tl) = true) : wfNode a = true ∧ wfForest tl = true := by
  simpa [wfForest, Bool.and_eq_true] using h

theorem adjForest_cons (a : Node) (tl : NodeList) (h : adjForest (.cons a tl) = true) :
    adjNode a = true ∧ adjForest tl = true ∧
      ∀ b tl', tl = .cons b tl' → sameCmd a b = false := by
  match tl with
  | .nil =>
    refine ⟨h, rfl, ?_⟩
    intro b tl' h'
    cases h'
  | .cons b tl' =>
    have h' : (adjNode a && !sameCmd a b && adjForest (.cons b tl')) = true := h
    simp only [Bool.and_eq_true, Bool.not_eq_true'] at h'
    refine ⟨h'.1.1, h'.2, ?_⟩
    intro b0 tl0 heq
    injection heq with hb htl
    rw [← hb]
    exact h'.1.2

/-- If `tl` is well-formed, does not start with a `CommandNode` of command
`k`, and `rest` does not start with a primitive character, then the text
`printForest tl ++ rest` does not start with `k`'s character — so a printed
run of `k`s followed by that text re-parses with the right run length. -/
theorem printForest_headNe (k : Command) (hkz : (k == Command.ZERO) = false)
    (tl : NodeList) (hwf : wfForest tl = true)
    (hhd : ∀ k' n' tl', tl = .cons (.CommandNode k' n') tl' → (k' == k) = false)
    (rest : List Char) (hrest : headNotCmd rest) :
    headNe (cmdChar k) (printForest tl ++ rest) := by
  have hk' : k ≠ Command.ZERO := by simpa using hkz
  match tl with
  | .nil =>
    intro d r h
    rw [printForest, List.nil_append] at h
    have h1 := hrest d r h
    cases hbe : d == cmdChar k
    · rfl
    · exfalso
      have hd : d = cmdChar k := by simpa using hbe
      rw [hd, cmdChar_isCmd k hk'] at h1
      exact Bool.noConfusion h1
  | .cons (.CommandNode k' n') tl' =>
    obtain ⟨hwfa, -⟩ := wfForest_cons _ _ hwf
    obtain ⟨hkz', hn'⟩ : (k' == Command.ZERO) = false ∧ 1 ≤ n' := by
      simpa [wfNode, Bool.and_eq_true, Bool.not_eq_true'] using hwfa
    have hk'' : k' ≠ Command.ZERO := by simpa using hkz'
    obtain ⟨m, rfl⟩ : ∃ m, n' = m + 1 := ⟨n' - 1, by omega⟩
    intro d r h
    rw [printForest, printNode, printCmd_eq k' _ hk'', List.replicate_succ,
      List.cons_append, List.cons_append] at h
    injection h with hd _
    rw [← hd]
    have : k' ≠ k := by simpa using hhd k' (m + 1) tl' rfl
    have hne : cmdChar k' ≠ cmdChar k := fun hc => this (cmdChar_inj k' k hk'' hk' hc)
    simpa using hne
  | .cons (.Loop ms) tl' =>
    intro d r h
    rw [printForest, printNode, List.cons_append, List.cons_append] at h
    injection h with hd _
    rw [← hd]
    cases k <;> rfl

/-- The key composition property behind the print-parse round trip: a
printed well-formed forest with no two adjacent equal-command leaves,
followed by any text not starting with a primitive character, parses back
to exactly that forest followed by whatever the trailing text parses to. -/
theorem parse_print_append :
    ∀ (N : Nat) (ns : NodeList), sizeOf ns ≤ N →
      wfForest ns = true → adjForest ns = true →
      ∀ (rest : List Char), headNotCmd rest →
      ∀ (f : Nat), (printForest ns ++ rest).length < f →
      parseF f (printForest ns ++ rest) =
        (ns ++ (parseF f rest).1, (parseF f rest).2) := by
  intro N
  induction N with
  | zero =>
    intro ns hsz
    exfalso
    cases ns <;> simp only [NodeList.nil.sizeOf_spec, NodeList.cons.sizeOf_spec] at hsz <;> omega
  | succ N ih =>
    intro ns hsz hwf hadj rest hrest f hf
    match ns with
    | .nil =>
      simp only [printForest, List.nil_append, NodeList.nil_append, Prod.mk.eta]
    | .cons (.CommandNode k n) tl =>
      obtain ⟨hwfa, hwftl⟩ := wfForest_cons _ _ hwf
      obtain ⟨hkz, hn⟩ : (k == Command.ZERO) = false ∧ 1 ≤ n := by
        simpa [wfNode, Bool.and_eq_true, Bool.not_eq_true'] using hwfa
      have hk' : k ≠ Command.ZERO := by simpa using hkz
      obtain ⟨-, hadjtl, hsame⟩ := adjForest_cons _ _ hadj
      have hhd : ∀ k' n' tl', tl = .cons (.CommandNode k' n') tl' → (k' == k) = false := by
        intro k' n' tl' heq
        have h1 : sameCmd (.CommandNode k n) (.CommandNode k' n') = false := hsame _ _ heq
        have h2 : (k == k') = false := h1
        have : k ≠ k' := by simpa using h2
        simpa using (Ne.symm this)
      obtain ⟨m, rfl⟩ : ∃ m, n = m + 1 := ⟨n - 1, by omega⟩
      have hprint : printForest (.cons (.CommandNode k (m + 1)) tl) ++ rest
          = cmdChar k :: (List.replicate m (cmdChar k) ++ (printForest tl ++ rest)) := by
        rw [printForest, printNode, printCmd_eq k _ hk', List.replicate_succ]
        simp [List.append_assoc]
      obtain ⟨f', rfl⟩ : ∃ f', f = f' + 1 := ⟨f - 1, by omega⟩
      have hlen : (List.replicate m (cmdChar k) ++ (printForest tl ++ rest)).length < f' := by
        rw [hprint] at hf
        simpa using Nat.lt_of_succ_lt_succ hf
      have hlenZ : (printForest tl ++ rest).length < f' := by
        simp only [List.length_append, List.length_replicate] at hlen ⊢
        omega
      have hszt : sizeOf tl ≤ N := by
        simp only [NodeList.cons.sizeOf_spec, Node.CommandNode.sizeOf_spec] at hsz
        omega
      have hZ : headNe (cmdChar k) (printForest tl ++ rest) :=
        printForest_headNe k hkz tl hwftl hhd rest hrest
      rw [hprint, parseF_run f' (cmdChar k) (cmdChar_isCmd k hk') m _ hZ,
        cmdOfChar_cmdChar k,
        ih tl hszt hwftl hadjtl rest hrest f' hlenZ,
        parseF_congr f' (f' + 1) rest
          (by simp only [List.length_append] at hlenZ; omega)
          (by simp only [List.length_append] at hlenZ; omega),
        NodeList.cons_append, Nat.add_comm 1 m]
    | .cons (.Loop ms) tl =>
      obtain ⟨hwfa, hwftl⟩ := wfForest_cons _ _ hwf
      have hwfms : wfForest ms = true := hwfa
      obtain ⟨hadja, hadjtl, -⟩ := adjForest_cons _ _ hadj
      have hadjms : adjForest ms = true := hadja
      have hprint : printForest (.cons (.Loop ms) tl) ++ rest
          = '[' :: (printForest ms ++ (']' :: (printForest tl ++ rest))) := by
        rw [printForest, printNode]
        simp [List.append_assoc]
      obtain ⟨f', rfl⟩ : ∃ f', f = f' + 1 := ⟨f - 1, by omega⟩
      have hlenR : (printForest ms ++ (']' :: (printForest tl ++ rest))).length < f' := by
        rw [hprint] at hf
        simpa using Nat.lt_of_succ_lt_succ hf
      have hlenZ : (printForest tl ++ rest).length < f' := by
        simp only [List.length_append, List.length_cons] at hlenR ⊢
        omega
      have hszms : sizeOf ms ≤ N := by
        simp only [NodeList.cons.sizeOf_spec, Node.Loop.sizeOf_spec] at hsz
        omega
      have hszt : sizeOf tl ≤ N := by
        simp only [NodeList.cons.sizeOf_spec, Node.Loop.sizeOf_spec] at hsz
        omega
      have hrest' : headNotCmd (']' :: (printForest tl ++ rest)) := by
        intro d r h
        injection h with hd _
        rw [← hd]
        rfl
      rw [hprint, parseF_succ_cons, if_neg (by decide), if_pos rfl,
        ih ms hszms hwfms hadjms _ hrest' f' hlenR,
        parseF_close f' _ (by omega),
        NodeList.append_nil, loopRewrite_eq,
        ih tl hszt hwftl hadjtl rest hrest f' hlenZ,
        parseF_congr f' (f' + 1) rest
          (by simp only [List.length_append] at hlenZ; omega)
          (by simp only [List.length_append] at hlenZ; omega),
        NodeList.cons_append]

/-- A character that is neither primitive nor a bracket is skipped: the
`switch` of lines 126-162 has no matching case. -/
theorem parseF_skip (f : Nat) (x : Char) (hx : isCmdChar x = false)
    (ho : x ≠ '[') (hc : x ≠ ']') (l : List Char) :
    parseF (f + 1) (x :: l) = parseF f l := by
  rw [parseF_succ_cons, if_neg (by simp [hx]), if_neg ho, if_neg hc]

theorem headNe_nil (c : Char) : headNe c [] := by
  intro d r h
  cases h

theorem headNe_of_ne (c d : Char) (r : List Char) (h : (d == c) = false) :
    headNe c (d :: r) := by
  intro e t he
  injection he with h1 _
  rw [← h1]
  exact h

/-- The run-length fold, with the fuel abstracted away: a maximal run of
`n` copies of a primitive character becomes one `CommandNode` of count `n`
and parsing continues on the rest of the stream. -/
theorem parseF_run_general (c : Char) (n : Nat) (rest : List Char) (f : Nat)
    (hc : isCmdChar c = true) (hn : 1 ≤ n) (hrest : headNe c rest)
    (hf : (List.replicate n c ++ rest).length < f) :
    parseF f (List.replicate n c ++ rest) =
      (.cons (.CommandNode (cmdOfChar c) n) (parseF f rest).1, (parseF f rest).2) := by
  obtain ⟨m, rfl⟩ : ∃ m, n = m + 1 := ⟨n - 1, by omega⟩
  obtain ⟨f', rfl⟩ : ∃ f', f = f' + 1 := ⟨f - 1, by omega⟩
  have hlen : m + 1 + rest.length < f' + 1 := by
    simpa [List.length_append] using hf
  rw [List.replicate_succ, List.cons_append, parseF_run f' c hc m rest hrest,
    parseF_congr f' (f' + 1) rest (by omega) (by omega), Nat.add_comm 1 m]

/-- The root-level round trip: printing a well-formed tree with no adjacent
equal-command leaves and parsing the output (children, then the printer's
trailing newline) recovers the tree. -/
theorem print_parse_roundtrip (p : Program)
    (hwf : wfForest p.children = true) (hadj : adjForest p.children = true) :
    parseProg (printProg p) = p := by
  obtain ⟨ns⟩ := p
  have hrest : headNotCmd ['\n'] := by
    intro d r h
    injection h with hd _
    rw [← hd]
    rfl
  show Program.mk (parseF ((printForest ns ++ ['\n']).length + 1) (printForest ns ++ ['\n'])).1 = ⟨ns⟩
  rw [parse_print_append (sizeOf ns) ns (Nat.le_refl _) hwf hadj ['\n'] hrest _
    (Nat.lt_succ_self _)]
  have hnl : ∀ g : Nat, 1 ≤ g → parseF g ['\n'] = (.nil, []) := by
    intro g hg
    obtain ⟨g', rfl⟩ : ∃ g', g = g' + 1 := ⟨g - 1, by omega⟩
    rw [parseF_skip g' '\n' rfl (by decide) (by decide), parseF_nil]
  rw [hnl _ (by omega), NodeList.append_nil]

/-- `++ptr` applied `count` times: pure pointer arithmetic, no comparison
against `max` anywhere (the claimed "overuse throws" of the comment at line
216 has no corresponding code). -/
theorem runCmd_shiftRight (n : Nat) (s : EState) :
    runCmd .SHIFT_RIGHT n s = { s with cursor := s.cursor + n } := by
  induction n generalizing s with
  | zero =>
    show s = { s with cursor := s.cursor + ((0 : Nat) : Int) }
    simp
  | succ n ih =>
    show runCmd .SHIFT_RIGHT n (cmdStep .SHIFT_RIGHT s) = _
    rw [ih]
    simp only [cmdStep, EState.mk.injEq, and_true, true_and, and_self]
    push_cast
    ring

/-! ## Step lemmas for symbolic execution of the evaluator

Fuel- and count-indexed unfolding equations stated with `f - 1` / `n - 1`
and a positivity side condition, so that `simp` can run a concrete program
even when the uninitialized part of the memory is a free variable. -/

theorem evalN_nil_le (f : Nat) (s : EState) (hf : 1 ≤ f) :
    evalN f .nil s = some s := by
  obtain ⟨g, rfl⟩ : ∃ g, f = g + 1 := ⟨f - 1, by omega⟩
  rfl

theorem evalN_cmd (f : Nat) (k : Command) (n : Nat) (rest : NodeList) (s : EState)
    (hf : 1 ≤ f) :
    evalN f (.cons (.CommandNode k n) rest) s = evalN (f - 1) rest (runCmd k n s) := by
  obtain ⟨g, rfl⟩ : ∃ g, f = g + 1 := ⟨f - 1, by omega⟩
  rfl

theorem evalN_loop_zero (f : Nat) (ns rest : NodeList) (s : EState)
    (hf : 1 ≤ f) (h : s.mem s.cursor = 0) :
    evalN f (.cons (.Loop ns) rest) s = evalN (f - 1) rest s := by
  obtain ⟨g, rfl⟩ : ∃ g, f = g + 1 := ⟨f - 1, by omega⟩
  show (if s.mem s.cursor = 0 then evalN g rest s else _) = evalN g rest s
  rw [if_pos h]

theorem evalN_loop_pos (f : Nat) (ns rest : NodeList) (s : EState)
    (hf : 1 ≤ f) (h : ¬s.mem s.cursor = 0) :
    evalN f (.cons (.Loop ns) rest) s =
      (evalN (f - 1) ns s).bind (fun t => evalN (f - 1) (.cons (.Loop ns) rest) t) := by
  obtain ⟨g, rfl⟩ : ∃ g, f = g + 1 := ⟨f - 1, by omega⟩
  have he : evalN (g + 1) (.cons (.Loop ns) rest) s =
      match evalN g ns s with
      | none => none
      | some t => evalN g (.cons (.Loop ns) rest) t := by
    show (if s.mem s.cursor = 0 then evalN g rest s
      else match evalN g ns s with
        | none => none
        | some t => evalN g (.cons (.Loop ns) rest) t) = _
    rw [if_neg h]
  rw [he, show g + 1 - 1 = g from rfl]
  cases evalN g ns s <;> rfl

theorem runCmd_pos (k : Command) (n : Nat) (s : EState) (hn : 1 ≤ n) :
    runCmd k n s = runCmd k (n - 1) (cmdStep k s) := by
  obtain ⟨m, rfl⟩ : ∃ m, n = m + 1 := ⟨n - 1, by omega⟩
  rfl

theorem runCmd_zero (k : Command) (s : EState) : runCmd k 0 s = s := rfl

theorem memWrite_self (m : Int → Nat) (i j : Int) (v : Nat) (h : j = i) :
    memWrite m i v j = v := by
  simp [memWrite, h]

theorem memWrite_ne (m : Int → Nat) (i j : Int) (v : Nat) (h : ¬j = i) :
    memWrite m i v j = m j := by
  simp [memWrite, h]

theorem initMem_zeroed (junk : Int → Nat) (i : Int) (h1 : 0 ≤ i) (h2 : i < 8) :
    initMem junk i = 0 := by
  simp [initMem, h1, h2]

/-! ## The claims -/

/-- Claim C1: the spec says a loop whose parsed body is exactly one
`CommandNode` of kind Increment or Decrement is replaced by a single
ClearCell node, so that `"[-]"` and `"[+]"` parse to one ClearCell node.
The code does not do this: the guard at line 147 compares the `Command`
enumerator (0..6) against the character codes 43/45, so `loopRewrite` is
the identity wrapping into a literal `Loop`, and `"[-]"` / `"[+]"` parse to
a literal `Loop` around one Decrement / Increment node. -/
theorem claim_C1_clear_cell_rewrite :
    (∀ body : NodeList, loopRewrite body = Node.Loop body) ∧
    parseProg "[-]".data =
      ⟨.cons (.Loop (.cons (.CommandNode .DECREMENT 1) .nil)) .nil⟩ ∧
    parseProg "[+]".data =
      ⟨.cons (.Loop (.cons (.CommandNode .INCREMENT 1) .nil)) .nil⟩ :=
  ⟨loopRewrite_eq, by decide, by decide⟩

/-- Claim C2: the spec says a ClearCell node prints as the three-character
idiom `[+]` (or `[-]`) repeated `repeat` times, and every other node as its
symbol repeated `repeat` times.  The second half is true, but the `ZERO`
branch at line 194 streams the multi-character literal `'[+]'` as an `int`,
emitting the seven decimal digits `5974877` per repetition instead of the
idiom. -/
theorem claim_C2_printer_clearcell :
    printCmd Command.ZERO 1 = "5974877".data ∧
    printCmd Command.ZERO 2 = ("5974877".data ++ "5974877".data) ∧
    printCmd Command.INCREMENT 4 = ['+', '+', '+', '+'] ∧
    printCmd Command.OUTPUT 2 = ['.', '.'] ∧
    printCmd Command.ZERO 1 ≠ ['[', '+', ']'] ∧
    printCmd Command.ZERO 1 ≠ ['[', '-', ']'] := by
  refine ⟨by decide, by decide, by decide, by decide, by decide, by decide⟩

/-- Claim C3, counterexample: the round trip `parse (print T) = T` fails
for `T = parse "++x++"`: `T` is two adjacent `CommandNode{Increment, 2}`
siblings (the ignored `x` separates the runs), which print as `++++` and
re-parse as a single `CommandNode{Increment, 4}`. -/
theorem claim_C3_roundtrip_cex :
    parseProg (printProg (parseProg "++x++".data)) ≠ parseProg "++x++".data := by
  decide

/-- Claim C3, amended: for every tree `T` produced by the parser in which
no two consecutive siblings (at any nesting level) are `CommandNode`s with
the same command, parsing the printed text yields `T` back.  (The parser
never produces ClearCell nodes — see C1 — so the idiom-rewrite part of the
round trip never arises.) -/
theorem claim_C3_roundtrip_amended (s : List Char)
    (hadj : adjForest (parseProg s).children = true) :
    parseProg (printProg (parseProg s)) = parseProg s :=
  print_parse_roundtrip (parseProg s) (parseF_wf _ _) hadj

theorem claim_C3_roundtrip_amended_witness :
    adjForest (parseProg "+[>-<]".data).children = true ∧
    parseProg (printProg (parseProg "+[>-<]".data)) = parseProg "+[>-<]".data :=
  ⟨by decide, claim_C3_roundtrip_amended "+[>-<]".data (by decide)⟩

/-- Claim C4: a maximal run of `n` identical primitive characters (the
following character, if any, differs) parses to exactly one `CommandNode`
with count `n`, after which parsing continues on the remaining stream;
in particular `"++++"` parses to the single node
`CommandNode{Increment, 4}`. -/
theorem claim_C4_run_length_fold :
    (∀ (c : Char) (n : Nat) (rest : List Char) (f : Nat),
      isCmdChar c = true → 1 ≤ n → headNe c rest →
      (List.replicate n c ++ rest).length < f →
      parseF f (List.replicate n c ++ rest) =
        (.cons (.CommandNode (cmdOfChar c) n) (parseF f rest).1, (parseF f rest).2)) ∧
    parseProg "++++".data = ⟨.cons (.CommandNode .INCREMENT 4) .nil⟩ :=
  ⟨fun c n rest f hc hn hr hf => parseF_run_general c n rest f hc hn hr hf, by decide⟩

theorem claim_C4_witness :
    (isCmdChar '+' = true) ∧ (1 ≤ 4) ∧ headNe '+' ['x'] ∧
    ((List.replicate 4 '+' ++ ['x']).length < 10) ∧
    parseF 10 (List.replicate 4 '+' ++ ['x']) =
      (.cons (.CommandNode (cmdOfChar '+') 4) (parseF 10 ['x']).1, (parseF 10 ['x']).2) :=
  ⟨rfl, by decide, headNe_of_ne '+' 'x' [] rfl, by decide,
    claim_C4_run_length_fold.1 '+' 4 ['x'] 10 rfl (by decide)
      (headNe_of_ne '+' 'x' [] rfl) (by decide)⟩

/-- Claim C5: evaluating the program parsed from
`"++++++++[>++++++++<-]>."` with empty input on a tape of at least 2 cells
yields the single output byte 64, for every initial content of the
non-zeroed cells (only cells 0 and 1, which `memset` did zero, are
touched). -/
theorem claim_C5_end_to_end (maxMemory : Int) (junk : Int → Nat)
    (h : 2 ≤ maxMemory) :
    Option.map EState.out
      (evalProg (parseProg "++++++++[>++++++++<-]>.".data) maxMemory [] junk 100)
      = some [64] := by
  have hp : parseProg "++++++++[>++++++++<-]>.".data =
      ⟨.cons (.CommandNode .INCREMENT 8)
        (.cons (.Loop (.cons (.CommandNode .SHIFT_RIGHT 1)
          (.cons (.CommandNode .INCREMENT 8)
            (.cons (.CommandNode .SHIFT_LEFT 1)
              (.cons (.CommandNode .DECREMENT 1) .nil)))))
          (.cons (.CommandNode .SHIFT_RIGHT 1)
            (.cons (.CommandNode .OUTPUT 1) .nil)))⟩ := by decide
  rw [hp]
  simp only [evalProg, initState]
  simp +decide [evalN_nil_le, evalN_cmd, evalN_loop_zero, evalN_loop_pos,
    runCmd_pos, runCmd_zero, cmdStep, memWrite_self, memWrite_ne,
    initMem_zeroed, wrap256]

theorem claim_C5_witness :
    (2 : Int) ≤ 30000 ∧
    Option.map EState.out
      (evalProg (parseProg "++++++++[>++++++++<-]>.".data) 30000 [] (fun _ => 0) 100)
      = some [64] :=
  ⟨by decide, claim_C5_end_to_end 30000 (fun _ => 0) (by decide)⟩

/-- Claim C6: the spec requires a ShiftRight at the tape's last valid cell
to fail with TapeOverflow.  The code has no such error path: `++ptr` always
succeeds and simply moves the cursor out of the tape (first conjunct: a
ShiftRight of any count from any state returns normally with the cursor
moved, never an error; second conjunct: running `>` on a 1-cell tape, i.e.
starting from the last valid cell, returns normally with the cursor at 1 —
one past the end). -/
theorem claim_C6_shift_unchecked :
    (∀ (s : EState) (n : Nat),
      evalN 2 (.cons (.CommandNode .SHIFT_RIGHT n) .nil) s =
        some { s with cursor := s.cursor + n }) ∧
    evalProg (parseProg ">".data) 1 [] (fun _ => 0) 10 =
      some { initState [] (fun _ => 0) with cursor := 1 } := by
  constructor
  · intro s n
    show evalN 1 .nil (runCmd .SHIFT_RIGHT n s) = _
    rw [runCmd_shiftRight]
    rfl
  · rfl

/-- Claim C7: cell arithmetic wraps modulo 256: one Increment sends a cell
holding `v < 256` to `(v+1) % 256` and one Decrement to `(v+255) % 256`;
in particular 255 increments to 0 and 0 decrements to 255.  `runCmd` is a
total function into `EState` — there is no overflow error path. -/
theorem claim_C7_wraparound (s : EState) (v : Nat)
    (hv : s.mem s.cursor = v) (hlt : v < 256) :
    ((runCmd .INCREMENT 1 s).mem s.cursor = (v + 1) % 256 ∧
     (runCmd .DECREMENT 1 s).mem s.cursor = (v + 255) % 256) ∧
    (v = 255 → (runCmd .INCREMENT 1 s).mem s.cursor = 0) ∧
    (v = 0 → (runCmd .DECREMENT 1 s).mem s.cursor = 255) := by
  have hinc : (runCmd .INCREMENT 1 s).mem s.cursor = (v + 1) % 256 := by
    show (cmdStep .INCREMENT s).mem s.cursor = _
    simp only [cmdStep]
    rw [memWrite_self _ _ _ _ rfl, hv, wrap256_eq_mod _ (by omega)]
  have hdec : (runCmd .DECREMENT 1 s).mem s.cursor = (v + 255) % 256 := by
    show (cmdStep .DECREMENT s).mem s.cursor = _
    simp only [cmdStep]
    rw [memWrite_self _ _ _ _ rfl, hv, wrap256_eq_mod _ (by omega)]
  refine ⟨⟨hinc, hdec⟩, ?_, ?_⟩
  · intro h
    rw [hinc, h]
  · intro h
    rw [hdec, h]

theorem claim_C7_witness :
    (({ cursor := 0, mem := fun _ => 255, inp := [], out := [] } : EState).mem 0 = 255
      ∧ 255 < 256) ∧
    (runCmd .INCREMENT 1
      { cursor := 0, mem := fun _ => 255, inp := [], out := [] }).mem 0 = 0 :=
  ⟨⟨rfl, by decide⟩, (claim_C7_wraparound _ 255 rfl (by decide)).2.1 rfl⟩

/-- Claim C8: the `CommandNode` constructor accepts exactly the characters
of its `switch` — `+ - < > , . 0` — mapping each to its command kind, and
throws `CommandNotValidException` for every other character. -/
theorem claim_C8_invalid_command :
    (∀ c : Char, c ∉ (['+', '-', '<', '>', ',', '.', '0'] : List Char) →
      commandFromChar c = .error .mk) ∧
    commandFromChar '+' = .ok .INCREMENT ∧ commandFromChar '-' = .ok .DECREMENT ∧
    commandFromChar '<' = .ok .SHIFT_LEFT ∧ commandFromChar '>' = .ok .SHIFT_RIGHT ∧
    commandFromChar ',' = .ok .INPUT ∧ commandFromChar '.' = .ok .OUTPUT ∧
    commandFromChar '0' = .ok .ZERO := by
  refine ⟨?_, rfl, rfl, rfl, rfl, rfl, rfl, rfl⟩
  intro c hc
  unfold commandFromChar
  split <;> simp_all

theorem claim_C8_witness :
    ('x' ∉ (['+', '-', '<', '>', ',', '.', '0'] : List Char)) ∧
    commandFromChar 'x' = .error .mk :=
  ⟨by decide, claim_C8_invalid_command.1 'x' (by decide)⟩

/-- Claim C9: the spec claims two runs of the same Program on the same
input and tape size give identical outputs and tapes — relying on the tape
being fully zero-initialized.  But `memset(arr, 0, sizeof(arr))` (line 219)
zeroes only `sizeof(unsigned char*)` = 8 bytes, so cells from index 8 on
retain the indeterminate contents of the heap block: the program
`>>>>>>>>.` (same Program, same empty input, same tape size 30000) outputs
whatever byte happens to sit at cell 8 — here two admissible initial heap
contents yield the two different outputs `[0]` and `[1]`. -/
theorem claim_C9_uninitialized_tape :
    Option.map EState.out
      (evalProg (parseProg ">>>>>>>>.".data) 30000 [] (fun _ => 0) 50) = some [0] ∧
    Option.map EState.out
      (evalProg (parseProg ">>>>>>>>.".data) 30000 [] (fun _ => 1) 50) = some [1] :=
  ⟨rfl, rfl⟩

/-- Claim C10: run-length folding only merges literally adjacent identical
characters: two runs of the same primitive character separated by an
ignored character produce one `CommandNode` per run; in particular
`"++ ++"` and `"++x++"` each parse to two `CommandNode{Increment, 2}`
nodes, not one folded node. -/
theorem claim_C10_no_fold_across_ignored :
    (∀ (c x : Char) (n m f : Nat),
      isCmdChar c = true → isCmdChar x = false → x ≠ '[' → x ≠ ']' →
      1 ≤ n → 1 ≤ m →
      (List.replicate n c ++ (x :: List.replicate m c)).length < f →
      parseF f (List.replicate n c ++ (x :: List.replicate m c)) =
        (.cons (.CommandNode (cmdOfChar c) n)
          (.cons (.CommandNode (cmdOfChar c) m) .nil), [])) ∧
    parseProg "++ ++".data =
      ⟨.cons (.CommandNode .INCREMENT 2) (.cons (.CommandNode .INCREMENT 2) .nil)⟩ ∧
    parseProg "++x++".data =
      ⟨.cons (.CommandNode .INCREMENT 2) (.cons (.CommandNode .INCREMENT 2) .nil)⟩ := by
  refine ⟨?_, by decide, by decide⟩
  intro c x n m f hc hx hxo hxc hn hm hf
  have hxne : (x == c) = false := by
    cases hbe : x == c
    · rfl
    · exfalso
      have hxc' : x = c := by simpa using hbe
      rw [hxc', hc] at hx
      exact Bool.noConfusion hx
  have hlen : n + (m + 1) < f := by
    simpa [List.length_append, List.length_cons, List.length_replicate] using hf
  rw [parseF_run_general c n (x :: List.replicate m c) f hc hn
    (headNe_of_ne c x _ hxne) hf]
  obtain ⟨f', rfl⟩ : ∃ f', f = f' + 1 := ⟨f - 1, by omega⟩
  have hX : parseF (f' + 1) (x :: List.replicate m c) =
      (.cons (.CommandNode (cmdOfChar c) m) .nil, ([] : List Char)) := by
    rw [parseF_skip f' x hx hxo hxc, ← List.append_nil (List.replicate m c),
      parseF_run_general c m [] f' hc hm (headNe_nil c) (by simp; omega),
      parseF_nil]
  rw [hX]

theorem claim_C10_witness :
    (isCmdChar '+' = true) ∧ (isCmdChar 'x' = false) ∧ (1 ≤ 2) ∧
    ((List.replicate 2 '+' ++ ('x' :: List.replicate 2 '+')).length < 10) ∧
    parseF 10 (List.replicate 2 '+' ++ ('x' :: List.replicate 2 '+')) =
      (.cons (.CommandNode (cmdOfChar '+') 2)
        (.cons (.CommandNode (cmdOfChar '+') 2) .nil), []) :=
  ⟨rfl, rfl, by decide, by decide,
    claim_C10_no_fold_across_ignored.1 '+' 'x' 2 2 10 rfl rfl (by decide) (by decide)
      (by decide) (by decide) (by decide)⟩
